import Mathlib

/-!
# The CLD2 boundary shim, `cbits/cld2_haskell_shim.cc`

A shallow embedding of the two functions of the file,
`cld2_haskell_shim_impl` (the marshaller) and `cld2_haskell_shim` (the guard
that turns C++ exceptions into an integer status), together with the part of
the C runtime they use: `calloc`, `free`, and exception propagation.

What is outside the file is a parameter of the model:

* the detection engine `ExtDetectLanguageSummary` is an arbitrary function
  `Engine`; it may return or throw any exception, and it may keep state of
  its own from one call to the next, so that the calls it receives are
  visible in the state it leaves;
* the allocator's answer to each of the three `calloc` calls is an arbitrary
  `CallocReply`.

C `int` objects hold an `Int`, `size_t` and `unsigned short` objects a `Nat`
or an `Int` cell; the code does no arithmetic on them.  The loop counter of
the copy loop is an `int` compared with a `size_t`; the model counts in `Nat`,
which is the same thing for every chunk count up to `INT_MAX`.

`free` of a pointer that is neither null nor the address of a live block is
undefined behaviour; a call that reaches it ends in the outcome `undefined`,
about which nothing more is said.
-/

namespace Cld2Shim

/-! ## Values -/

/-- An address.  Address 0 is the null pointer. -/
abbrev Ptr := Nat

/-- The null pointer. -/
def NULL : Ptr := 0

/-- The bit pattern of a C `double`.  The shim only forwards the pointer
`normalized_score3`; it never computes with a score. -/
abbrev CDouble := Nat

/-- Modelled from the spec: the macro `ENOMEM` of `<cerrno>`, the "platform
out of memory code".  The header is not part of the sources; 12 is its value
on Linux, and POSIX requires it to be positive. -/
def ENOMEM : Int := 12

/-- A fixed array of three elements (`language3`, `percent3`,
`normalized_score3`). -/
structure Triple (α : Type) where
  e0 : α
  e1 : α
  e2 : α
deriving DecidableEq, Repr

/-- The enumeration `CLD2::Language`, represented by its integer code:
`static_cast<Language>(n)` is `Language.mk n` and `static_cast<int>(l)` is
`l.code`. -/
structure Language where
  code : Int
deriving DecidableEq, Repr

/-- Modelled from the spec: the engine's `ResultChunk` record, declared in
`compact_lang_det.h`, which is not part of the sources: "byte offset into the
original buffer, byte length, and a detected language code".  `offset` is an
`int`, `bytes` and `lang1` are unsigned 16-bit, the element types of the three
output arrays, so the assignments of the copy loop convert nothing. -/
structure ResultChunk where
  offset : Int
  bytes : Nat
  lang1 : Nat
deriving DecidableEq, Repr, Inhabited

/-- The struct `CLDHints` filled in at lines 49-52. -/
structure CLDHints where
  content_language_hint : Ptr
  tld_hint : Ptr
  encoding_hint : Int
  language_hint : Language
deriving DecidableEq, Repr

/-- The by-value arguments of one call of `ExtDetectLanguageSummary`
(lines 54-57); `hints` is passed by address and read by the engine. -/
structure EngineArgs where
  buffer : Ptr
  buffer_length : Int
  is_plain_text : Bool
  hints : CLDHints
  flags : Int
deriving DecidableEq, Repr

/-- A C++ exception object, as far as the two handlers of
`cld2_haskell_shim` can tell exceptions apart.  `bad_array_new_length` stands
for the classes derived from `std::bad_alloc`; `other` is anything else,
including objects that are not a `std::exception`. -/
inductive CppException where
  | bad_alloc
  | bad_array_new_length
  | other (tag : Nat)
deriving DecidableEq, Repr

/-- Does the handler `catch(bad_alloc& exc)` match the exception? -/
def CppException.is_bad_alloc : CppException → Bool
  | .bad_alloc => true
  | .bad_array_new_length => true
  | .other _ => false

/-! ## The heap -/

/-- A live block obtained from `calloc`/`malloc`: its address and its
elements. -/
structure Block where
  addr : Ptr
  cells : List Int
deriving DecidableEq, Repr

/-- The blocks obtained from the allocator and not yet released. -/
abbrev Heap := List Block

/-- Is `p` the address of a live block? -/
def heap_live (h : Heap) (p : Ptr) : Bool :=
  h.any (fun b => b.addr == p)

/-- The elements of the live block at `p`. -/
def heap_cells (h : Heap) (p : Ptr) : Option (List Int) :=
  (h.find? (fun b => b.addr == p)).map Block.cells

/-- Read `p[i]`. -/
def heap_load (h : Heap) (p : Ptr) (i : Nat) : Option Int :=
  (heap_cells h p).bind (fun cs => cs[i]?)

/-- The assignment `p[i] = v`. -/
def heap_store (h : Heap) (p : Ptr) (i : Nat) (v : Int) : Heap :=
  h.map (fun b => if b.addr == p then { b with cells := b.cells.set i v } else b)

/-- The addresses of the live blocks. -/
def heap_addrs (h : Heap) : List Ptr :=
  h.map Block.addr

/-- An address that is not null, not a live block and not in `avoid`. -/
def fresh (h : Heap) (avoid : List Ptr) : Ptr :=
  (heap_addrs h ++ avoid).foldr max 0 + 1

/-- What one call of `calloc` returns: a null pointer, or a pointer to a new
block.  For a request of at least one element `null` is an allocation failure;
for a request of zero elements C allows both answers. -/
inductive CallocReply where
  | null
  | block
deriving DecidableEq, Repr

/-- The call `calloc(nmemb, size)`: either a null pointer and an unchanged heap, or
a new zero-filled block of `nmemb` elements.  The new block lies apart from
every live object: from the live blocks and from the objects at `avoid`
(the caller's three pointer slots, the only other addresses the code passes to
`free`). -/
def calloc (h : Heap) (avoid : List Ptr) (reply : CallocReply) (nmemb : Nat) (_size : Nat) :
    Ptr × Heap :=
  match reply with
  | .null => (NULL, h)
  | .block => (fresh h avoid, h ++ [⟨fresh h avoid, List.replicate nmemb 0⟩])

/-- The call `free(p)`: nothing for a null pointer, the release of the block
for the address of a live block, and undefined behaviour (`none`) for any
other pointer. -/
def free (h : Heap) (p : Ptr) : Option Heap :=
  if p = NULL then some h
  else if heap_live h p then some (h.filter (fun b => !(b.addr == p)))
  else none

/-! ## The engine -/

/-- The three caller objects whose addresses the shim forwards to the engine
(`percent3`, `normalized_score3`, `text_bytes`): the engine writes them
directly. -/
structure EngineWrites where
  percent3 : Triple Int
  normalized_score3 : Triple CDouble
  text_bytes : Int
deriving DecidableEq, Repr

/-- What a returning engine call leaves in the shim's locals: the return
value `result`, `my_language3`, `resultChunks` and `my_is_reliable`. -/
structure EngineReturn where
  result : Language
  language3 : Triple Language
  resultChunks : List ResultChunk
  is_reliable : Bool
deriving DecidableEq, Repr

/-- How an engine call ends. -/
inductive EngineExit where
  | returns (out : EngineReturn)
  | throws (e : CppException)
deriving DecidableEq, Repr

/-- The state on the engine's side that outlives a call.  It has the shape of
a journal of the calls served; an engine may keep such a journal in it, count
its calls, or ignore it. -/
abbrev EngineState := List EngineArgs

/-- The effect of one engine call: the contents it leaves in the forwarded
caller objects, how it ends, and the state it leaves on its own side. -/
structure EngineResult where
  writes : EngineWrites
  exit : EngineExit
  state : EngineState
deriving DecidableEq, Repr

/-- The engine `ExtDetectLanguageSummary`, an external collaborator: any
function of its arguments, of the prior contents of the forwarded objects and
of its own state. -/
abbrev Engine := EngineArgs → EngineWrites → EngineState → EngineResult

/-- The allocator's answers to the three `calloc` calls of lines 66-71. -/
structure CallocReplies where
  offsets : CallocReply
  sizes : CallocReply
  langs : CallocReply
deriving DecidableEq, Repr

/-! ## The caller's side -/

/-- The arguments of `cld2_haskell_shim` that the code uses as values.  The
last three are the parameters `int **chunk_offsets`,
`unsigned short **chunk_sizes`, `unsigned short **chunk_langs`: the addresses
of the caller's pointer slots. -/
structure ShimArgs where
  buffer : Ptr
  buffer_length : Int
  is_plain_text : Int
  content_language_hint : Ptr
  tld_hint : Ptr
  encoding_hint : Int
  language_hint : Int
  flags : Int
  chunk_offsets : Ptr
  chunk_sizes : Ptr
  chunk_langs : Ptr
deriving DecidableEq, Repr

/-- The memory the call can change: the caller's output objects (one field
for each object an output parameter points to; the caller passes pointers to
distinct objects), the heap, and the state on the engine's side, which only
an engine call changes. -/
structure Memory where
  result : Int
  language3 : Triple Int
  percent3 : Triple Int
  normalized_score3 : Triple CDouble
  num_chunks : Nat
  chunk_offsets : Ptr
  chunk_sizes : Ptr
  chunk_langs : Ptr
  text_bytes : Int
  is_reliable : Int
  heap : Heap
  engine_state : EngineState
deriving DecidableEq, Repr

/-- How `cld2_haskell_shim_impl` ends: with a return value, with an
exception in flight, or in undefined behaviour; `m` is the memory at that
point. -/
inductive ImplOutcome where
  | returns (value : Int) (m : Memory)
  | throws (e : CppException) (m : Memory)
  | undefined (m : Memory)
deriving DecidableEq, Repr

/-- How a call of `cld2_haskell_shim` can end: it returns a status, an
exception leaves it, or its behaviour is undefined from memory `m` on. -/
inductive ShimOutcome where
  | returned (status : Int) (m : Memory)
  | propagates (e : CppException) (m : Memory)
  | undefined (m : Memory)
deriving DecidableEq, Repr

/-! ## The code -/

/-- The body of the copy loop, lines 83-85, for one index `i`. -/
def copy_chunk (resultChunks : List ResultChunk) (offsets sizes langs : Ptr)
    (h : Heap) (i : Nat) : Heap :=
  let c := resultChunks.getD i default
  heap_store (heap_store (heap_store h offsets i c.offset) sizes i (c.bytes : Int))
    langs i (c.lang1 : Int)

/-- The copy loop `for(int i=0; i < *num_chunks; i++)`, lines 82-86. -/
def copy_chunks (resultChunks : List ResultChunk) (offsets sizes langs : Ptr)
    (num_chunks : Nat) (h : Heap) : Heap :=
  (List.range num_chunks).foldl (copy_chunk resultChunks offsets sizes langs) h

/-- The three calls `free(chunk_offsets); free(chunk_sizes); free(chunk_langs);`
of lines 76-78.  Their arguments are the parameters themselves, the addresses
of the caller's slots. -/
def free_all (h : Heap) (a : ShimArgs) : Option Heap :=
  (free h a.chunk_offsets).bind (fun h1 =>
    (free h1 a.chunk_sizes).bind (fun h2 => free h2 a.chunk_langs))

/-- The local `hints` after lines 49-52. -/
def make_hints (a : ShimArgs) : CLDHints :=
  { content_language_hint := a.content_language_hint
    tld_hint := a.tld_hint
    encoding_hint := a.encoding_hint
    language_hint := Language.mk a.language_hint }

/-- The arguments of the engine call of lines 54-63. -/
def engine_args (a : ShimArgs) : EngineArgs :=
  { buffer := a.buffer
    buffer_length := a.buffer_length
    is_plain_text := decide (a.is_plain_text ≠ 0)
    hints := make_hints a
    flags := a.flags }

/-- The contents, before the engine call, of the caller objects whose
addresses are forwarded to the engine. -/
def forwarded (m : Memory) : EngineWrites :=
  ⟨m.percent3, m.normalized_score3, m.text_bytes⟩

/-- The engine call made by a call of the shim with arguments `a` in memory
`m`. -/
def engine_result (engine : Engine) (a : ShimArgs) (m : Memory) : EngineResult :=
  engine (engine_args a) (forwarded m) m.engine_state

/-- The function `cld2_haskell_shim_impl`, lines 25-94. -/
def cld2_haskell_shim_impl (engine : Engine) (replies : CallocReplies) (a : ShimArgs)
    (m : Memory) : ImplOutcome :=
  let call := engine_args a
  let r := engine call (forwarded m) m.engine_state
  let m1 : Memory :=
    { m with
      percent3 := r.writes.percent3
      normalized_score3 := r.writes.normalized_score3
      text_bytes := r.writes.text_bytes
      engine_state := r.state }
  match r.exit with
  | .throws e => .throws e m1
  | .returns out =>
    let avoid := [a.chunk_offsets, a.chunk_sizes, a.chunk_langs]
    let num_chunks := out.resultChunks.length
    let c1 := calloc m1.heap avoid replies.offsets num_chunks 4
    let c2 := calloc c1.2 avoid replies.sizes num_chunks 2
    let c3 := calloc c2.2 avoid replies.langs num_chunks 2
    let m2 : Memory :=
      { m1 with
        num_chunks := num_chunks
        chunk_offsets := c1.1
        chunk_sizes := c2.1
        chunk_langs := c3.1
        heap := c3.2 }
    if c1.1 = NULL ∨ c2.1 = NULL ∨ c3.1 = NULL then
      match free_all m2.heap a with
      | none => .undefined m2
      | some h => .throws .bad_alloc { m2 with heap := h }
    else
      .returns out.result.code
        { m2 with
          heap := copy_chunks out.resultChunks c1.1 c2.1 c3.1 num_chunks m2.heap
          language3 := ⟨out.language3.e0.code, out.language3.e1.code, out.language3.e2.code⟩
          is_reliable := if out.is_reliable then 1 else 0 }

/-- The exported function `cld2_haskell_shim`, lines 96-142. -/
def cld2_haskell_shim (engine : Engine) (replies : CallocReplies) (a : ShimArgs)
    (m : Memory) : ShimOutcome :=
  match cld2_haskell_shim_impl engine replies a m with
  | .returns my_result m1 => .returned 0 { m1 with result := my_result }
  | .throws e m1 => if e.is_bad_alloc then .returned ENOMEM m1 else .returned (-1) m1
  | .undefined m1 => .undefined m1

/-- The status of an outcome, when the call returned. -/
def ShimOutcome.status : ShimOutcome → Option Int
  | .returned s _ => some s
  | .propagates _ _ => none
  | .undefined _ => none

/-- The memory of an outcome. -/
def ShimOutcome.memory : ShimOutcome → Memory
  | .returned _ m => m
  | .propagates _ m => m
  | .undefined m => m

/-! ## Sample calls -/

/-- A caller's memory with an empty heap: the output objects are not heap
blocks. -/
def mem0 : Memory :=
  { result := 77
    language3 := ⟨0, 0, 0⟩
    percent3 := ⟨0, 0, 0⟩
    normalized_score3 := ⟨0, 0, 0⟩
    num_chunks := 0
    chunk_offsets := 0
    chunk_sizes := 0
    chunk_langs := 0
    text_bytes := 0
    is_reliable := 0
    heap := []
    engine_state := [] }

/-- A call on a 15-byte buffer at address 1000, no hints; the three pointer
slots are at addresses 500, 508 and 516. -/
def args0 : ShimArgs :=
  { buffer := 1000
    buffer_length := 15
    is_plain_text := 1
    content_language_hint := 0
    tld_hint := 0
    encoding_hint := 23
    language_hint := 26
    flags := 0
    chunk_offsets := 500
    chunk_sizes := 508
    chunk_langs := 516 }

/-- An engine that finds two chunks, English then French, and enters each
call it serves in its journal. -/
def engine_two_chunks : Engine := fun call _ journal =>
  { writes := ⟨⟨60, 40, 0⟩, ⟨1100, 900, 0⟩, 15⟩
    exit := .returns
      { result := ⟨0⟩
        language3 := ⟨⟨0⟩, ⟨4⟩, ⟨26⟩⟩
        resultChunks := [⟨0, 9, 0⟩, ⟨9, 6, 4⟩]
        is_reliable := true }
    state := journal ++ [call] }

/-- All three allocations deliver a block. -/
def all_blocks : CallocReplies := ⟨.block, .block, .block⟩

/-! ## Properties of memories and chunk sequences -/

/-- What a successful call leaves in memory `m1`, in terms of what the engine
call returned and wrote. -/
structure Marshalled (engine : Engine) (a : ShimArgs) (m : Memory) (out : EngineReturn)
    (m1 : Memory) : Prop where
  result_eq : m1.result = out.result.code
  num_chunks_eq : m1.num_chunks = out.resultChunks.length
  offsets_eq :
    heap_cells m1.heap m1.chunk_offsets = some (out.resultChunks.map (fun c => c.offset))
  sizes_eq :
    heap_cells m1.heap m1.chunk_sizes = some (out.resultChunks.map (fun c => (c.bytes : Int)))
  langs_eq :
    heap_cells m1.heap m1.chunk_langs = some (out.resultChunks.map (fun c => (c.lang1 : Int)))
  offsets_ne : m1.chunk_offsets ≠ NULL
  sizes_ne : m1.chunk_sizes ≠ NULL
  langs_ne : m1.chunk_langs ≠ NULL
  language3_eq :
    m1.language3 = ⟨out.language3.e0.code, out.language3.e1.code, out.language3.e2.code⟩
  percent3_eq : m1.percent3 = (engine_result engine a m).writes.percent3
  normalized_score3_eq :
    m1.normalized_score3 = (engine_result engine a m).writes.normalized_score3
  text_bytes_eq : m1.text_bytes = (engine_result engine a m).writes.text_bytes
  is_reliable_eq : m1.is_reliable = if out.is_reliable then 1 else 0

/-- The memory `mem0` of a caller that obtained its three pointer slots from
`malloc`: the blocks at 500, 508 and 516 are live. -/
def mem_heap_slots : Memory :=
  { mem0 with heap := [⟨500, [0]⟩, ⟨508, [0]⟩, ⟨516, [0]⟩] }

/-- What `engine_two_chunks` returns. -/
def out_two_chunks : EngineReturn :=
  { result := ⟨0⟩
    language3 := ⟨⟨0⟩, ⟨4⟩, ⟨26⟩⟩
    resultChunks := [⟨0, 9, 0⟩, ⟨9, 6, 4⟩]
    is_reliable := true }

/-- An engine result with an empty chunk sequence. -/
def out_no_chunks : EngineReturn :=
  { result := ⟨26⟩
    language3 := ⟨⟨26⟩, ⟨26⟩, ⟨26⟩⟩
    resultChunks := []
    is_reliable := false }

/-- An engine that finds no chunk at all. -/
def engine_no_chunks : Engine := fun call _ journal =>
  { writes := ⟨⟨0, 0, 0⟩, ⟨0, 0, 0⟩, 0⟩
    exit := .returns out_no_chunks
    state := journal ++ [call] }

/-- An engine that runs out of memory itself and throws `std::bad_alloc`. -/
def engine_throws_bad_alloc : Engine := fun call w journal =>
  { writes := w
    exit := .throws .bad_alloc
    state := journal ++ [call] }

/-- An engine that throws an exception unrelated to memory. -/
def engine_throws_other : Engine := fun call w journal =>
  { writes := w
    exit := .throws (.other 7)
    state := journal ++ [call] }

/-- An engine that answers the call `engine_args args0` as `engine_two_chunks`
does and fails on every other call. -/
def engine_only_args0 : Engine := fun call w journal =>
  if call = engine_args args0 then engine_two_chunks call w journal
  else engine_throws_other call w journal

/-- The memory that `cld2_haskell_shim engine_two_chunks all_blocks args0 mem0`
returns. -/
def mem_two_chunks : Memory :=
  { result := 0
    language3 := ⟨0, 4, 26⟩
    percent3 := ⟨60, 40, 0⟩
    normalized_score3 := ⟨1100, 900, 0⟩
    num_chunks := 2
    chunk_offsets := 517
    chunk_sizes := 518
    chunk_langs := 519
    text_bytes := 15
    is_reliable := 1
    heap := [⟨517, [0, 9]⟩, ⟨518, [9, 6]⟩, ⟨519, [0, 4]⟩]
    engine_state := [engine_args args0] }

/-- The chunk sequence is offset-ascending: no chunk starts before its
predecessor. -/
def chunks_ascending (cs : List ResultChunk) : Prop :=
  ∀ (i : Nat) (c d : ResultChunk), cs[i]? = some c → cs[i + 1]? = some d → c.offset ≤ d.offset

/-- Every chunk's span ends inside a buffer of `len` bytes. -/
def chunks_within (cs : List ResultChunk) (len : Int) : Prop :=
  ∀ (i : Nat) (c : ResultChunk), cs[i]? = some c → c.offset + (c.bytes : Int) ≤ len

/-- The entries of the array at `offsets` are ascending in index order. -/
def offsets_ascending (h : Heap) (offsets : Ptr) : Prop :=
  ∀ (i : Nat) (x y : Int), heap_load h offsets i = some x → heap_load h offsets (i + 1) = some y → x ≤ y

/-- For every index below `n`, `offsets[i] + sizes[i]` does not exceed
`len`. -/
def spans_within (h : Heap) (offsets sizes : Ptr) (n : Nat) (len : Int) : Prop :=
  ∀ (i : Nat), i < n → ∃ (x s : Int), heap_load h offsets i = some x ∧ heap_load h sizes i = some s ∧
    x + s ≤ len

/-- Modelled from the spec: the contract of the engine for the chunk sequence
it returns; the engine `ExtDetectLanguageSummary` is not part of the sources.
A chunk is "a contiguous byte span of the input", and the sequence "reflects
the original buffer's chunk sequence", in "offset-ascending order": no chunk
starts before its predecessor, and every chunk ends inside the buffer of
`buffer_length` bytes. -/
def engine_chunk_contract (cs : List ResultChunk) (buffer_length : Int) : Prop :=
  chunks_ascending cs ∧ chunks_within cs buffer_length

/-! ## Lemmas -/

/-- Writing `f i` at every index below `k`, in order, replaces the first `k`
elements. -/
theorem foldl_set_range (f : Nat → Int) : ∀ (k : Nat) (l : List Int), k ≤ l.length →
    (List.range k).foldl (fun l i => l.set i (f i)) l = (List.range k).map f ++ l.drop k := by
  intro k
  induction k with
  | zero => intro l _; simp
  | succ k ih =>
    intro l hk
    have hk' : k < l.length := hk
    have hd : (l.drop k).set 0 (f k) = f k :: l.drop (k + 1) := by
      rw [List.drop_eq_getElem_cons hk', List.set_cons_zero]
    rw [List.range_succ, List.foldl_append, ih l (by omega)]
    simp only [List.foldl_cons, List.foldl_nil, List.map_append, List.map_cons, List.map_nil]
    rw [List.set_append_right _ _ (by simp)]
    simp only [List.length_map, List.length_range, Nat.sub_self, hd]
    simp

/-- Reading a list by index over all its indices is mapping over it. -/
theorem map_getD_range {α β : Type} (d : α) (g : α → β) (cs : List α) :
    (List.range cs.length).map (fun i => g (cs.getD i d)) = cs.map g := by
  apply List.ext_getElem
  · simp
  · intro n h1 h2
    simp only [List.length_map, List.length_range] at h1
    simp [List.getElem?_eq_getElem h1]

/-- Every element is at most the maximum. -/
theorem le_foldr_max (l : List Nat) : ∀ x ∈ l, x ≤ l.foldr max 0 := by
  induction l with
  | nil => intro x hx; cases hx
  | cons y ys ih =>
    intro x hx
    simp only [List.foldr_cons]
    rcases List.mem_cons.mp hx with h | h
    · subst h; exact le_max_left _ _
    · exact le_trans (ih x h) (le_max_right _ _)

/-- A fresh address lies above every live block. -/
theorem fresh_gt_addr (h : Heap) (avoid : List Ptr) (b : Block) (hb : b ∈ h) :
    b.addr < fresh h avoid := by
  unfold fresh
  have : b.addr ∈ heap_addrs h ++ avoid :=
    List.mem_append_left _ (List.mem_map_of_mem Block.addr hb)
  exact Nat.lt_succ_of_le (le_foldr_max _ _ this)

/-- A fresh address is not null. -/
theorem fresh_ne_null (h : Heap) (avoid : List Ptr) : fresh h avoid ≠ NULL := by
  unfold fresh NULL
  exact Nat.succ_ne_zero _

/-- Looking up a block in a heap with one more block in front. -/
theorem heap_cells_cons (b : Block) (h : Heap) (q : Ptr) :
    heap_cells (b :: h) q = if b.addr = q then some b.cells else heap_cells h q := by
  unfold heap_cells
  by_cases hq : b.addr = q
  · simp [List.find?_cons, hq]
  · simp [List.find?_cons, hq]

/-- Blocks at other addresses do not matter to a lookup. -/
theorem heap_cells_append_of_ne (h t : Heap) (q : Ptr) (hne : ∀ b ∈ h, b.addr ≠ q) :
    heap_cells (h ++ t) q = heap_cells t q := by
  induction h with
  | nil => rfl
  | cons b bs ih =>
    rw [List.cons_append, heap_cells_cons, if_neg (hne b (List.mem_cons_self _ _))]
    exact ih (fun c hc => hne c (List.mem_cons_of_mem _ hc))

/-- A store changes one element of the block it addresses and no other
block. -/
theorem heap_cells_store (h : Heap) (p q : Ptr) (i : Nat) (v : Int) :
    heap_cells (heap_store h p i v) q =
      if q = p then (heap_cells h q).map (fun l => l.set i v) else heap_cells h q := by
  induction h with
  | nil => simp [heap_store, heap_cells]
  | cons b bs ih =>
    have hcons : heap_store (b :: bs) p i v =
        (if b.addr == p then { b with cells := b.cells.set i v } else b) :: heap_store bs p i v := rfl
    rw [hcons, heap_cells_cons, heap_cells_cons, ih]
    by_cases hbp : b.addr = p
    · by_cases hbq : b.addr = q
      · have hqp : q = p := hbq.symm.trans hbp
        simp [hbp, hqp]
      · have hqp : ¬ q = p := fun hqp => hbq (hbp.trans hqp.symm)
        have hpq : ¬ p = q := fun hpq => hqp hpq.symm
        simp [hbp, hqp, hpq]
    · by_cases hbq : b.addr = q
      · have hqp : ¬ q = p := fun hqp => hbp (hbq.trans hqp)
        simp [hbp, hbq, hqp]
      · simp [hbp, hbq]

/-- A loop whose body stores `f i` at index `i` of the block at `p`. -/
theorem heap_cells_foldl (body : Heap → Nat → Heap) (p : Ptr) (f : Nat → Int)
    (hbody : ∀ h i, heap_cells (body h i) p = (heap_cells h p).map (fun l => l.set i (f i)))
    (k : Nat) (h : Heap) :
    heap_cells ((List.range k).foldl body h) p =
      (heap_cells h p).map (fun l => (List.range k).foldl (fun l i => l.set i (f i)) l) := by
  induction k with
  | zero => simp
  | succ k ih =>
    rw [List.range_succ, List.foldl_append]
    simp only [List.foldl_cons, List.foldl_nil]
    rw [hbody, ih, Option.map_map]
    congr 1
    funext l
    simp [List.foldl_append]

/-- The copy loop fills three distinct blocks of the right length with the
three fields of the chunks, in order. -/
theorem heap_cells_copy_chunks (cs : List ResultChunk) (p1 p2 p3 : Ptr) (h : Heap)
    (z1 z2 z3 : List Int) (h12 : p1 ≠ p2) (h13 : p1 ≠ p3) (h23 : p2 ≠ p3)
    (hz1 : heap_cells h p1 = some z1) (hz2 : heap_cells h p2 = some z2)
    (hz3 : heap_cells h p3 = some z3)
    (hl1 : z1.length = cs.length) (hl2 : z2.length = cs.length) (hl3 : z3.length = cs.length) :
    heap_cells (copy_chunks cs p1 p2 p3 cs.length h) p1 = some (cs.map (fun c => c.offset)) ∧
    heap_cells (copy_chunks cs p1 p2 p3 cs.length h) p2 = some (cs.map (fun c => (c.bytes : Int))) ∧
    heap_cells (copy_chunks cs p1 p2 p3 cs.length h) p3 = some (cs.map (fun c => (c.lang1 : Int))) := by
  have e1 : ∀ g i, heap_cells (copy_chunk cs p1 p2 p3 g i) p1 =
      (heap_cells g p1).map (fun l => l.set i ((cs.getD i default).offset)) := by
    intro g i
    simp only [copy_chunk, heap_cells_store, if_neg h13, if_neg h12, if_true]
  have e2 : ∀ g i, heap_cells (copy_chunk cs p1 p2 p3 g i) p2 =
      (heap_cells g p2).map (fun l => l.set i (((cs.getD i default).bytes : Nat) : Int)) := by
    intro g i
    simp only [copy_chunk, heap_cells_store, if_neg h23, if_neg (Ne.symm h12), if_true]
  have e3 : ∀ g i, heap_cells (copy_chunk cs p1 p2 p3 g i) p3 =
      (heap_cells g p3).map (fun l => l.set i (((cs.getD i default).lang1 : Nat) : Int)) := by
    intro g i
    simp only [copy_chunk, heap_cells_store, if_neg (Ne.symm h23), if_neg (Ne.symm h13), if_true]
  unfold copy_chunks
  refine ⟨?_, ?_, ?_⟩
  · rw [heap_cells_foldl _ p1 _ e1, hz1, Option.map_some', foldl_set_range _ _ _ (by omega),
      map_getD_range default (fun c => c.offset) cs, List.drop_of_length_le (by omega),
      List.append_nil]
  · rw [heap_cells_foldl _ p2 _ e2, hz2, Option.map_some', foldl_set_range _ _ _ (by omega),
      map_getD_range default (fun c => (c.bytes : Int)) cs, List.drop_of_length_le (by omega),
      List.append_nil]
  · rw [heap_cells_foldl _ p3 _ e3, hz3, Option.map_some', foldl_set_range _ _ _ (by omega),
      map_getD_range default (fun c => (c.lang1 : Int)) cs, List.drop_of_length_le (by omega),
      List.append_nil]

/-- A newly allocated block is found at its address. -/
theorem heap_cells_snoc_fresh (h : Heap) (avoid : List Ptr) (z : List Int) :
    heap_cells (h ++ [⟨fresh h avoid, z⟩]) (fresh h avoid) = some z := by
  rw [heap_cells_append_of_ne _ _ _ (fun b hb => Nat.ne_of_lt (fresh_gt_addr h avoid b hb)),
    heap_cells_cons]
  simp

/-- A live address lies below a fresh one. -/
theorem heap_cells_some_lt_fresh (h : Heap) (avoid : List Ptr) (q : Ptr) (z : List Int)
    (hq : heap_cells h q = some z) : q < fresh h avoid := by
  unfold heap_cells at hq
  cases hf : h.find? (fun b => b.addr == q) with
  | none => rw [hf] at hq; cases hq
  | some b =>
    have hmem : b ∈ h := List.mem_of_find?_eq_some hf
    have hp := List.find?_some hf
    have hbq : b.addr = q := by simpa using hp
    rw [← hbq]
    exact fresh_gt_addr h avoid b hmem

/-- An allocation leaves the live blocks as they are. -/
theorem heap_cells_snoc_of_some (h : Heap) (b : Block) (q : Ptr) (z : List Int)
    (hq : heap_cells h q = some z) : heap_cells (h ++ [b]) q = some z := by
  unfold heap_cells at hq ⊢
  rw [List.find?_append]
  cases hf : h.find? (fun b => b.addr == q) with
  | none => rw [hf] at hq; cases hq
  | some c => rw [hf] at hq; simpa using hq

/-- The heap after three successful allocations of `n` elements. -/
theorem heap_cells_three_blocks (h0 : Heap) (avoid : List Ptr) (n s1 s2 s3 : Nat) :
    let c1 := calloc h0 avoid .block n s1
    let c2 := calloc c1.2 avoid .block n s2
    let c3 := calloc c2.2 avoid .block n s3
    heap_cells c3.2 c1.1 = some (List.replicate n 0) ∧
    heap_cells c3.2 c2.1 = some (List.replicate n 0) ∧
    heap_cells c3.2 c3.1 = some (List.replicate n 0) ∧
    c1.1 ≠ c2.1 ∧ c1.1 ≠ c3.1 ∧ c2.1 ≠ c3.1 ∧
    c1.1 ≠ NULL ∧ c2.1 ≠ NULL ∧ c3.1 ≠ NULL := by
  intro c1 c2 c3
  have k1 : heap_cells c1.2 c1.1 = some (List.replicate n 0) := heap_cells_snoc_fresh _ _ _
  have k2 : heap_cells c2.2 c2.1 = some (List.replicate n 0) := heap_cells_snoc_fresh _ _ _
  have k3 : heap_cells c3.2 c3.1 = some (List.replicate n 0) := heap_cells_snoc_fresh _ _ _
  have k12 : heap_cells c2.2 c1.1 = some (List.replicate n 0) :=
    heap_cells_snoc_of_some _ _ _ _ k1
  have k13 : heap_cells c3.2 c1.1 = some (List.replicate n 0) :=
    heap_cells_snoc_of_some _ _ _ _ k12
  have k23 : heap_cells c3.2 c2.1 = some (List.replicate n 0) :=
    heap_cells_snoc_of_some _ _ _ _ k2
  have l12 : c1.1 < c2.1 := heap_cells_some_lt_fresh _ avoid _ _ k1
  have l13 : c1.1 < c3.1 := heap_cells_some_lt_fresh _ avoid _ _ k12
  have l23 : c2.1 < c3.1 := heap_cells_some_lt_fresh _ avoid _ _ k2
  exact ⟨k13, k23, k3, Nat.ne_of_lt l12, Nat.ne_of_lt l13, Nat.ne_of_lt l23,
    fresh_ne_null _ _, fresh_ne_null _ _, fresh_ne_null _ _⟩

/-- A call in which the engine returns and every allocation delivers a block
returns status 0 and leaves the marshalled result. -/
theorem shim_success (engine : Engine) (replies : CallocReplies) (a : ShimArgs) (m : Memory)
    (out : EngineReturn) (hexit : (engine_result engine a m).exit = .returns out)
    (hr : replies = ⟨.block, .block, .block⟩) :
    ∃ m1, cld2_haskell_shim engine replies a m = .returned 0 m1 ∧
      Marshalled engine a m out m1 ∧
      m1.engine_state = (engine_result engine a m).state := by
  subst hr
  have hexit2 : (engine (engine_args a) (forwarded m) m.engine_state).exit = .returns out := hexit
  obtain ⟨k1, k2, k3, n12, n13, n23, z1, z2, z3⟩ :=
    heap_cells_three_blocks m.heap [a.chunk_offsets, a.chunk_sizes, a.chunk_langs]
      out.resultChunks.length 4 2 2
  have hc := heap_cells_copy_chunks out.resultChunks _ _ _ _ _ _ _ n12 n13 n23 k1 k2 k3
    (by simp) (by simp) (by simp)
  obtain ⟨o1, o2, o3⟩ := hc
  simp only [cld2_haskell_shim, cld2_haskell_shim_impl, hexit2]
  rw [if_neg (by
    intro h
    rcases h with h | h | h
    · exact z1 h
    · exact z2 h
    · exact z3 h)]
  refine ⟨_, rfl, ?_, rfl⟩
  exact
    { result_eq := rfl
      num_chunks_eq := rfl
      offsets_eq := o1
      sizes_eq := o2
      langs_eq := o3
      offsets_ne := z1
      sizes_ne := z2
      langs_ne := z3
      language3_eq := rfl
      percent3_eq := rfl
      normalized_score3_eq := rfl
      text_bytes_eq := rfl
      is_reliable_eq := rfl }

/-- Status 0 is returned only when the engine returned and every allocation
delivered a block. -/
theorem shim_status_zero_inv (engine : Engine) (replies : CallocReplies) (a : ShimArgs)
    (m m1 : Memory) (h : cld2_haskell_shim engine replies a m = .returned 0 m1) :
    ∃ out, (engine_result engine a m).exit = .returns out ∧
      replies = ⟨.block, .block, .block⟩ := by
  cases hx : (engine (engine_args a) (forwarded m) m.engine_state).exit with
  | throws e =>
    exfalso
    simp only [cld2_haskell_shim, cld2_haskell_shim_impl, hx] at h
    split at h
    · injection h with hs _; exact absurd hs (by decide)
    · injection h with hs _; exact absurd hs (by decide)
  | returns out =>
    refine ⟨out, hx, ?_⟩
    obtain ⟨r1, r2, r3⟩ := replies
    simp only [cld2_haskell_shim, cld2_haskell_shim_impl, hx] at h
    split at h
    · rename_i v m2 himpl
      split at himpl
      · split at himpl
        · cases himpl
        · cases himpl
      · rename_i hnn
        cases r1 <;> cases r2 <;> cases r3 <;> first | rfl | (exfalso; apply hnn; simp [calloc])
    · split at h
      · injection h with hs _; exact absurd hs (by decide)
      · injection h with hs _; exact absurd hs (by decide)
    · cases h

/-- On every path, the state on the engine's side and the forwarded caller
objects are, when the call of the shim ends, what the one engine call on
`engine_args a` left. -/
theorem shim_engine_effect (engine : Engine) (replies : CallocReplies) (a : ShimArgs)
    (m : Memory) :
    (cld2_haskell_shim engine replies a m).memory.engine_state =
      (engine (engine_args a) (forwarded m) m.engine_state).state ∧
    (cld2_haskell_shim engine replies a m).memory.percent3 =
      (engine (engine_args a) (forwarded m) m.engine_state).writes.percent3 ∧
    (cld2_haskell_shim engine replies a m).memory.normalized_score3 =
      (engine (engine_args a) (forwarded m) m.engine_state).writes.normalized_score3 ∧
    (cld2_haskell_shim engine replies a m).memory.text_bytes =
      (engine (engine_args a) (forwarded m) m.engine_state).writes.text_bytes := by
  cases hx : (engine (engine_args a) (forwarded m) m.engine_state).exit with
  | throws e =>
    simp only [cld2_haskell_shim, cld2_haskell_shim_impl, hx]
    split <;> exact ⟨rfl, rfl, rfl, rfl⟩
  | returns out =>
    simp only [cld2_haskell_shim, cld2_haskell_shim_impl, hx]
    split
    · rename_i v m2 himpl
      split at himpl
      · split at himpl
        · cases himpl
        · cases himpl
      · injection himpl with _ hm
        subst hm
        exact ⟨rfl, rfl, rfl, rfl⟩
    · rename_i e m2 himpl
      split at himpl
      · split at himpl
        · cases himpl
        · injection himpl with _ hm
          subst hm
          split <;> exact ⟨rfl, rfl, rfl, rfl⟩
      · cases himpl
    · rename_i m2 himpl
      split at himpl
      · split at himpl
        · injection himpl with hm
          subst hm
          exact ⟨rfl, rfl, rfl, rfl⟩
        · cases himpl
      · cases himpl

/-- The outcome of a call depends on the engine only through its answer to
the call on `engine_args a`. -/
theorem shim_engine_ext (engine engine2 : Engine) (replies : CallocReplies) (a : ShimArgs)
    (m : Memory)
    (hsame : engine2 (engine_args a) (forwarded m) m.engine_state =
      engine (engine_args a) (forwarded m) m.engine_state) :
    cld2_haskell_shim engine2 replies a m = cld2_haskell_shim engine replies a m := by
  simp only [cld2_haskell_shim, cld2_haskell_shim_impl, hsame]

/-- An exception thrown by the engine is turned into a status; the result
slot and the heap stay as they were. -/
theorem shim_engine_throws (engine : Engine) (replies : CallocReplies) (a : ShimArgs)
    (m : Memory) (e : CppException) (hx : (engine_result engine a m).exit = .throws e) :
    ∃ m1, cld2_haskell_shim engine replies a m =
        .returned (if e.is_bad_alloc then ENOMEM else -1) m1 ∧
      m1.result = m.result ∧ m1.heap = m.heap := by
  have hx2 : (engine (engine_args a) (forwarded m) m.engine_state).exit = .throws e := hx
  simp only [cld2_haskell_shim, cld2_haskell_shim_impl, hx2]
  cases e <;> exact ⟨_, rfl, rfl, rfl⟩

/-- A call that returns status 0 leaves the marshalled result of a returning
engine call. -/
theorem shim_status_zero_marshalled (engine : Engine) (replies : CallocReplies)
    (a : ShimArgs) (m m1 : Memory)
    (h : cld2_haskell_shim engine replies a m = .returned 0 m1) :
    ∃ out, (engine_result engine a m).exit = .returns out ∧ Marshalled engine a m out m1 := by
  obtain ⟨out, hx, hr⟩ := shim_status_zero_inv engine replies a m m1 h
  obtain ⟨m2, h2, hm, _⟩ := shim_success engine replies a m out hx hr
  rw [h] at h2
  injection h2 with _ hmm
  subst hmm
  exact ⟨out, hx, hm⟩

/-- Reading an element of a known block. -/
theorem heap_load_of_cells (h : Heap) (p : Ptr) (i : Nat) (l : List Int)
    (hc : heap_cells h p = some l) : heap_load h p i = l[i]? := by
  simp [heap_load, hc]

/-! ## The claims -/

/-- C1. Whenever the engine call returns and each of the three `calloc` calls
delivers a block, `cld2_haskell_shim` returns status 0 and the caller's result
slot holds the engine's overall language code, converted to `int`. -/
theorem shim_success_status_and_result (engine : Engine) (replies : CallocReplies)
    (a : ShimArgs) (m : Memory) (out : EngineReturn)
    (hengine : (engine_result engine a m).exit = .returns out)
    (h1 : replies.offsets = .block) (h2 : replies.sizes = .block)
    (h3 : replies.langs = .block) :
    ∃ m1, cld2_haskell_shim engine replies a m = .returned 0 m1 ∧
      m1.result = out.result.code := by
  obtain ⟨r1, r2, r3⟩ := replies
  simp only at h1 h2 h3
  subst h1 h2 h3
  obtain ⟨m1, hs, hm, _⟩ := shim_success engine _ a m out hengine rfl
  exact ⟨m1, hs, hm.result_eq⟩

/-- The two-chunk call satisfies the hypotheses of C1. -/
theorem shim_success_status_and_result_witness :
    (engine_result engine_two_chunks args0 mem0).exit = .returns out_two_chunks ∧
    ∃ m1, cld2_haskell_shim engine_two_chunks all_blocks args0 mem0 = .returned 0 m1 ∧
      m1.result = out_two_chunks.result.code :=
  ⟨rfl, shim_success_status_and_result engine_two_chunks all_blocks args0 mem0 out_two_chunks
    rfl rfl rfl rfl⟩

/-- C2, at a failing input.  The engine finds two chunks and the first
`calloc` fails, in a caller whose pointer slots are ordinary objects, not
heap blocks: line 76 passes the address of the slot to `free`, the behaviour
of the call is undefined, and no status is returned. -/
theorem shim_alloc_failure_is_undefined :
    cld2_haskell_shim engine_two_chunks ⟨.null, .block, .block⟩ args0 mem0 =
      .undefined (cld2_haskell_shim engine_two_chunks ⟨.null, .block, .block⟩ args0 mem0).memory ∧
    (cld2_haskell_shim engine_two_chunks ⟨.null, .block, .block⟩ args0 mem0).status ≠
      some ENOMEM := by
  decide

/-- C3 as stated fails: an engine that throws `std::bad_alloc` fails in a way
other than a failed output-array allocation, and the status is `ENOMEM`, not
-1. -/
theorem shim_engine_bad_alloc_is_ENOMEM :
    (engine_result engine_throws_bad_alloc args0 mem0).exit = .throws .bad_alloc ∧
    (cld2_haskell_shim engine_throws_bad_alloc all_blocks args0 mem0).status = some ENOMEM ∧
    (cld2_haskell_shim engine_throws_bad_alloc all_blocks args0 mem0).status ≠ some (-1) := by
  decide

/-- C3, amended.  In every call in which no output-array allocation returns a
null pointer (the engine throws, or all three `calloc` calls deliver a block)
the shim returns a status, one of 0, `ENOMEM` and -1, and no exception leaves
it.  When the engine throws an exception, the status is `ENOMEM` if the
exception is a `std::bad_alloc` (or derived from it) and -1 for every other
exception, and the result slot is not written. -/
theorem shim_status_closed (engine : Engine) (replies : CallocReplies) (a : ShimArgs)
    (m : Memory)
    (hno : (∃ e, (engine_result engine a m).exit = .throws e) ∨
      replies = ⟨.block, .block, .block⟩) :
    ∃ st m1, cld2_haskell_shim engine replies a m = .returned st m1 ∧
      (st = 0 ∨ st = ENOMEM ∨ st = -1) ∧
      (∀ e, (engine_result engine a m).exit = .throws e →
        st = (if e.is_bad_alloc then ENOMEM else -1) ∧ m1.result = m.result) := by
  cases hx : (engine_result engine a m).exit with
  | throws e =>
    obtain ⟨m1, hs, hres, _⟩ := shim_engine_throws engine replies a m e hx
    refine ⟨_, m1, hs, ?_, ?_⟩
    · cases e <;> simp [CppException.is_bad_alloc]
    · intro e2 he2
      injection he2 with hee
      subst hee
      exact ⟨rfl, hres⟩
  | returns out =>
    rcases hno with ⟨e, he⟩ | hr
    · rw [hx] at he; cases he
    · obtain ⟨m1, hs, _, _⟩ := shim_success engine replies a m out hx hr
      exact ⟨0, m1, hs, Or.inl rfl, fun e he => by cases he⟩

/-- A call whose engine throws an exception unrelated to memory satisfies the
hypothesis of the amended C3. -/
theorem shim_status_closed_witness :
    ((∃ e, (engine_result engine_throws_other args0 mem0).exit = .throws e) ∨
      all_blocks = ⟨.block, .block, .block⟩) ∧
    ∃ st m1, cld2_haskell_shim engine_throws_other all_blocks args0 mem0 = .returned st m1 ∧
      (st = 0 ∨ st = ENOMEM ∨ st = -1) ∧
      (∀ e, (engine_result engine_throws_other args0 mem0).exit = .throws e →
        st = (if e.is_bad_alloc then ENOMEM else -1) ∧ m1.result = mem0.result) :=
  ⟨Or.inl ⟨.other 7, rfl⟩,
    shim_status_closed engine_throws_other all_blocks args0 mem0 (Or.inl ⟨.other 7, rfl⟩)⟩

/-- C4. After every call that returns status 0, `num_chunks` is the length of
the chunk sequence the engine returned, and each of the three arrays
`chunk_offsets`, `chunk_sizes`, `chunk_langs` is a block of exactly that many
elements. -/
theorem shim_arrays_have_chunk_count (engine : Engine) (replies : CallocReplies)
    (a : ShimArgs) (m m1 : Memory)
    (h : cld2_haskell_shim engine replies a m = .returned 0 m1) :
    ∃ out, (engine_result engine a m).exit = .returns out ∧
      m1.num_chunks = out.resultChunks.length ∧
      (heap_cells m1.heap m1.chunk_offsets).map List.length = some m1.num_chunks ∧
      (heap_cells m1.heap m1.chunk_sizes).map List.length = some m1.num_chunks ∧
      (heap_cells m1.heap m1.chunk_langs).map List.length = some m1.num_chunks := by
  obtain ⟨out, hx, hm⟩ := shim_status_zero_marshalled engine replies a m m1 h
  refine ⟨out, hx, hm.num_chunks_eq, ?_, ?_, ?_⟩
  · simp [hm.offsets_eq, hm.num_chunks_eq]
  · simp [hm.sizes_eq, hm.num_chunks_eq]
  · simp [hm.langs_eq, hm.num_chunks_eq]

/-- The two-chunk call returns status 0, so C4 applies to it. -/
theorem shim_arrays_have_chunk_count_witness :
    cld2_haskell_shim engine_two_chunks all_blocks args0 mem0 = .returned 0 mem_two_chunks ∧
    ∃ out, (engine_result engine_two_chunks args0 mem0).exit = .returns out ∧
      mem_two_chunks.num_chunks = out.resultChunks.length ∧
      (heap_cells mem_two_chunks.heap mem_two_chunks.chunk_offsets).map List.length =
        some mem_two_chunks.num_chunks ∧
      (heap_cells mem_two_chunks.heap mem_two_chunks.chunk_sizes).map List.length =
        some mem_two_chunks.num_chunks ∧
      (heap_cells mem_two_chunks.heap mem_two_chunks.chunk_langs).map List.length =
        some mem_two_chunks.num_chunks :=
  ⟨by decide,
    shim_arrays_have_chunk_count engine_two_chunks all_blocks args0 mem0 mem_two_chunks
      (by decide)⟩

/-- C5. After every call that returns status 0, for every index `i` below the
chunk count, `chunk_offsets[i]`, `chunk_sizes[i]` and `chunk_langs[i]` are the
offset, the byte length and the primary language code `lang1` of the `i`-th
chunk of the engine's sequence, unchanged. -/
theorem shim_arrays_hold_chunks (engine : Engine) (replies : CallocReplies)
    (a : ShimArgs) (m m1 : Memory)
    (h : cld2_haskell_shim engine replies a m = .returned 0 m1) :
    ∃ out, (engine_result engine a m).exit = .returns out ∧
      ∀ i, i < m1.num_chunks → ∃ c, out.resultChunks[i]? = some c ∧
        heap_load m1.heap m1.chunk_offsets i = some c.offset ∧
        heap_load m1.heap m1.chunk_sizes i = some (c.bytes : Int) ∧
        heap_load m1.heap m1.chunk_langs i = some (c.lang1 : Int) := by
  obtain ⟨out, hx, hm⟩ := shim_status_zero_marshalled engine replies a m m1 h
  refine ⟨out, hx, ?_⟩
  intro i hi
  rw [hm.num_chunks_eq] at hi
  refine ⟨out.resultChunks[i], List.getElem?_eq_getElem hi, ?_, ?_, ?_⟩
  · rw [heap_load_of_cells _ _ _ _ hm.offsets_eq]
    simp [List.getElem?_eq_getElem hi]
  · rw [heap_load_of_cells _ _ _ _ hm.sizes_eq]
    simp [List.getElem?_eq_getElem hi]
  · rw [heap_load_of_cells _ _ _ _ hm.langs_eq]
    simp [List.getElem?_eq_getElem hi]

/-- The two-chunk call returns status 0, so C5 applies to it. -/
theorem shim_arrays_hold_chunks_witness :
    cld2_haskell_shim engine_two_chunks all_blocks args0 mem0 = .returned 0 mem_two_chunks ∧
    ∃ out, (engine_result engine_two_chunks args0 mem0).exit = .returns out ∧
      ∀ i, i < mem_two_chunks.num_chunks → ∃ c, out.resultChunks[i]? = some c ∧
        heap_load mem_two_chunks.heap mem_two_chunks.chunk_offsets i = some c.offset ∧
        heap_load mem_two_chunks.heap mem_two_chunks.chunk_sizes i = some (c.bytes : Int) ∧
        heap_load mem_two_chunks.heap mem_two_chunks.chunk_langs i = some (c.lang1 : Int) :=
  ⟨by decide,
    shim_arrays_hold_chunks engine_two_chunks all_blocks args0 mem0 mem_two_chunks
      (by decide)⟩

/-- C6, at a failing input.  The engine returns an empty chunk sequence and
`calloc` answers each zero-element request with a null pointer, as C allows:
the test of lines 73-75 takes the null pointers for failed allocations.  In a
caller whose pointer slots are heap blocks the status is `ENOMEM`, not 0, and
the three array pointers are null; in a caller whose slots are ordinary
objects the behaviour is undefined. -/
theorem shim_zero_chunks_null_calloc :
    (engine_result engine_no_chunks args0 mem_heap_slots).exit = .returns out_no_chunks ∧
    out_no_chunks.resultChunks = [] ∧
    (cld2_haskell_shim engine_no_chunks ⟨.null, .null, .null⟩ args0 mem_heap_slots).status =
      some ENOMEM ∧
    (cld2_haskell_shim engine_no_chunks ⟨.null, .null, .null⟩ args0
      mem_heap_slots).memory.chunk_offsets = NULL ∧
    (cld2_haskell_shim engine_no_chunks ⟨.null, .null, .null⟩ args0
      mem_heap_slots).memory.chunk_sizes = NULL ∧
    (cld2_haskell_shim engine_no_chunks ⟨.null, .null, .null⟩ args0
      mem_heap_slots).memory.chunk_langs = NULL ∧
    cld2_haskell_shim engine_no_chunks ⟨.null, .null, .null⟩ args0 mem0 =
      .undefined (cld2_haskell_shim engine_no_chunks ⟨.null, .null, .null⟩ args0 mem0).memory := by
  decide

/-- C7, at a failing input.  The engine finds two chunks, the first and third
`calloc` deliver a block and the second fails, in a caller whose three pointer
slots are the heap blocks 500, 508 and 516.  When the call returns `ENOMEM`,
the two arrays it allocated (517 and 518) are still live, and the blocks
released are the caller's three slots. -/
theorem shim_alloc_failure_frees_slots :
    (cld2_haskell_shim engine_two_chunks ⟨.block, .null, .block⟩ args0 mem_heap_slots).status =
      some ENOMEM ∧
    heap_addrs mem_heap_slots.heap = [500, 508, 516] ∧
    [args0.chunk_offsets, args0.chunk_sizes, args0.chunk_langs] = [500, 508, 516] ∧
    (cld2_haskell_shim engine_two_chunks ⟨.block, .null, .block⟩ args0
      mem_heap_slots).memory.chunk_offsets = 517 ∧
    (cld2_haskell_shim engine_two_chunks ⟨.block, .null, .block⟩ args0
      mem_heap_slots).memory.chunk_langs = 518 ∧
    heap_addrs (cld2_haskell_shim engine_two_chunks ⟨.block, .null, .block⟩ args0
      mem_heap_slots).memory.heap = [517, 518] := by
  decide

/-- C8. After every call that returns status 0, `language3[k]` is the integer
code of the engine's `k`-th ranked language for `k = 0, 1, 2`, `percent3`,
`normalized_score3` and `text_bytes` hold what the engine wrote there, and
`is_reliable` is 1 when the engine reported the result reliable and 0
otherwise. -/
theorem shim_scalar_outputs (engine : Engine) (replies : CallocReplies)
    (a : ShimArgs) (m m1 : Memory)
    (h : cld2_haskell_shim engine replies a m = .returned 0 m1) :
    ∃ out, (engine_result engine a m).exit = .returns out ∧
      m1.language3.e0 = out.language3.e0.code ∧
      m1.language3.e1 = out.language3.e1.code ∧
      m1.language3.e2 = out.language3.e2.code ∧
      m1.percent3 = (engine_result engine a m).writes.percent3 ∧
      m1.normalized_score3 = (engine_result engine a m).writes.normalized_score3 ∧
      m1.text_bytes = (engine_result engine a m).writes.text_bytes ∧
      m1.is_reliable = (if out.is_reliable then 1 else 0) := by
  obtain ⟨out, hx, hm⟩ := shim_status_zero_marshalled engine replies a m m1 h
  refine ⟨out, hx, ?_, ?_, ?_, hm.percent3_eq, hm.normalized_score3_eq, hm.text_bytes_eq,
    hm.is_reliable_eq⟩
  · rw [hm.language3_eq]
  · rw [hm.language3_eq]
  · rw [hm.language3_eq]

/-- The two-chunk call returns status 0, so C8 applies to it. -/
theorem shim_scalar_outputs_witness :
    cld2_haskell_shim engine_two_chunks all_blocks args0 mem0 = .returned 0 mem_two_chunks ∧
    ∃ out, (engine_result engine_two_chunks args0 mem0).exit = .returns out ∧
      mem_two_chunks.language3.e0 = out.language3.e0.code ∧
      mem_two_chunks.language3.e1 = out.language3.e1.code ∧
      mem_two_chunks.language3.e2 = out.language3.e2.code ∧
      mem_two_chunks.percent3 = (engine_result engine_two_chunks args0 mem0).writes.percent3 ∧
      mem_two_chunks.normalized_score3 =
        (engine_result engine_two_chunks args0 mem0).writes.normalized_score3 ∧
      mem_two_chunks.text_bytes = (engine_result engine_two_chunks args0 mem0).writes.text_bytes ∧
      mem_two_chunks.is_reliable = (if out.is_reliable then 1 else 0) :=
  ⟨by decide,
    shim_scalar_outputs engine_two_chunks all_blocks args0 mem0 mem_two_chunks (by decide)⟩

/-- C9. Every call of `cld2_haskell_shim` invokes the engine exactly once, on the
arguments `engine_args a`: the caller's buffer pointer, buffer length and
flags, the plain-text argument true exactly when `is_plain_text` is not zero,
and hints whose four fields are the four hint arguments (the two string
pointers as they are, so null stays null; the encoding as the same integer;
the language as the language with that integer code).  For every engine,
whatever state it keeps: when the call of the shim ends, the state on the
engine's side and the forwarded caller objects are exactly what one
invocation on these arguments, from the state and contents before the call,
leaves; and the outcome is the same for every engine that answers this one
invocation in the same way. -/
theorem shim_calls_engine_once (engine : Engine) (replies : CallocReplies) (a : ShimArgs)
    (m : Memory) :
    ((engine_args a).buffer = a.buffer ∧
      (engine_args a).buffer_length = a.buffer_length ∧
      (engine_args a).flags = a.flags ∧
      ((engine_args a).is_plain_text = true ↔ a.is_plain_text ≠ 0) ∧
      (engine_args a).hints.content_language_hint = a.content_language_hint ∧
      (engine_args a).hints.tld_hint = a.tld_hint ∧
      (engine_args a).hints.encoding_hint = a.encoding_hint ∧
      (engine_args a).hints.language_hint.code = a.language_hint) ∧
    ((cld2_haskell_shim engine replies a m).memory.engine_state =
        (engine (engine_args a) (forwarded m) m.engine_state).state ∧
      (cld2_haskell_shim engine replies a m).memory.percent3 =
        (engine (engine_args a) (forwarded m) m.engine_state).writes.percent3 ∧
      (cld2_haskell_shim engine replies a m).memory.normalized_score3 =
        (engine (engine_args a) (forwarded m) m.engine_state).writes.normalized_score3 ∧
      (cld2_haskell_shim engine replies a m).memory.text_bytes =
        (engine (engine_args a) (forwarded m) m.engine_state).writes.text_bytes) ∧
    (∀ engine2 : Engine,
      engine2 (engine_args a) (forwarded m) m.engine_state =
        engine (engine_args a) (forwarded m) m.engine_state →
      cld2_haskell_shim engine2 replies a m = cld2_haskell_shim engine replies a m) :=
  ⟨⟨rfl, rfl, rfl, by simp [engine_args], rfl, rfl, rfl, rfl⟩,
    shim_engine_effect engine replies a m,
    fun engine2 hsame => shim_engine_ext engine engine2 replies a m hsame⟩

/-- C9 at the two-chunk call: the engine's journal, empty before the call,
holds the one entry `engine_args args0` after it, and an engine that agrees
with `engine_two_chunks` on that call only gives the same outcome. -/
theorem shim_calls_engine_once_witness :
    mem0.engine_state = [] ∧
    (cld2_haskell_shim engine_two_chunks all_blocks args0 mem0).memory.engine_state =
      [engine_args args0] ∧
    engine_only_args0 (engine_args args0) (forwarded mem0) mem0.engine_state =
      engine_two_chunks (engine_args args0) (forwarded mem0) mem0.engine_state ∧
    cld2_haskell_shim engine_only_args0 all_blocks args0 mem0 =
      cld2_haskell_shim engine_two_chunks all_blocks args0 mem0 :=
  ⟨rfl,
    (shim_calls_engine_once engine_two_chunks all_blocks args0 mem0).2.1.1.trans (by decide),
    by decide,
    (shim_calls_engine_once engine_two_chunks all_blocks args0 mem0).2.2 engine_only_args0
      (by decide)⟩

/-- The shim hands on the order and the bounds of the engine's chunk sequence:
after every call that returns status 0, the entries of `chunk_offsets` are
ascending exactly when the engine's chunk sequence is offset-ascending, and
`chunk_offsets[i] + chunk_sizes[i]` stays within `buffer_length` for every
index below the chunk count exactly when every chunk of the engine's sequence
ends inside the buffer. -/
theorem shim_order_and_bounds_follow_engine (engine : Engine) (replies : CallocReplies)
    (a : ShimArgs) (m m1 : Memory)
    (h : cld2_haskell_shim engine replies a m = .returned 0 m1) :
    ∃ out, (engine_result engine a m).exit = .returns out ∧
      (offsets_ascending m1.heap m1.chunk_offsets ↔ chunks_ascending out.resultChunks) ∧
      (spans_within m1.heap m1.chunk_offsets m1.chunk_sizes m1.num_chunks a.buffer_length ↔
        chunks_within out.resultChunks a.buffer_length) := by
  obtain ⟨out, hx, hm⟩ := shim_status_zero_marshalled engine replies a m m1 h
  have lo : ∀ i, heap_load m1.heap m1.chunk_offsets i =
      (out.resultChunks[i]?).map (fun c => c.offset) := by
    intro i
    rw [heap_load_of_cells _ _ _ _ hm.offsets_eq, List.getElem?_map]
  have ls : ∀ i, heap_load m1.heap m1.chunk_sizes i =
      (out.resultChunks[i]?).map (fun c => (c.bytes : Int)) := by
    intro i
    rw [heap_load_of_cells _ _ _ _ hm.sizes_eq, List.getElem?_map]
  refine ⟨out, hx, ⟨?_, ?_⟩, ⟨?_, ?_⟩⟩
  · intro hasc i c d hc hd
    exact hasc i c.offset d.offset (by rw [lo, hc]; rfl) (by rw [lo, hd]; rfl)
  · intro hasc i x y hxl hyl
    rw [lo] at hxl hyl
    obtain ⟨c, hc, hcx⟩ := Option.map_eq_some'.mp hxl
    obtain ⟨d, hd, hdy⟩ := Option.map_eq_some'.mp hyl
    rw [← hcx, ← hdy]
    exact hasc i c d hc hd
  · intro hin i c hc
    have hi : i < out.resultChunks.length := (List.getElem?_eq_some.mp hc).1
    obtain ⟨x, s, hxl, hsl, hle⟩ := hin i (by rw [hm.num_chunks_eq]; exact hi)
    rw [lo, hc] at hxl
    rw [ls, hc] at hsl
    injection hxl with hxl
    injection hsl with hsl
    rw [← hxl, ← hsl] at hle
    exact hle
  · intro hin i hi
    rw [hm.num_chunks_eq] at hi
    have hc : out.resultChunks[i]? = some out.resultChunks[i] := List.getElem?_eq_getElem hi
    refine ⟨out.resultChunks[i].offset, (out.resultChunks[i].bytes : Int), ?_, ?_, ?_⟩
    · rw [lo, hc]; rfl
    · rw [ls, hc]; rfl
    · exact hin i _ hc

/-- The chunk sequence of `engine_two_chunks` meets the engine's contract in
the 15-byte buffer of `args0`. -/
theorem two_chunks_contract (out : EngineReturn)
    (hout : (engine_result engine_two_chunks args0 mem0).exit = .returns out) :
    engine_chunk_contract out.resultChunks args0.buffer_length := by
  have hcs : out.resultChunks = [⟨0, 9, 0⟩, ⟨9, 6, 4⟩] := by
    have h2 : EngineExit.returns out_two_chunks = EngineExit.returns out := hout
    injection h2 with h3
    rw [← h3]
    rfl
  rw [hcs]
  constructor
  · intro i c d hc hd
    match i with
    | 0 =>
      simp only [List.getElem?_cons_zero, List.getElem?_cons_succ, Option.some.injEq] at hc hd
      subst hc hd
      decide
    | 1 => simp at hd
    | n + 2 => simp at hc
  · intro i c hc
    match i with
    | 0 =>
      simp only [List.getElem?_cons_zero, Option.some.injEq] at hc
      subst hc
      decide
    | 1 =>
      simp only [List.getElem?_cons_zero, List.getElem?_cons_succ, Option.some.injEq] at hc
      subst hc
      decide
    | n + 2 => simp at hc

/-- C10. After every call of `cld2_haskell_shim` that returns status 0, with an
engine whose chunk sequence meets the engine's contract (offset-ascending
spans of the buffer), the entries of `chunk_offsets` are ascending in index
order and, for every index `i` below the chunk count,
`chunk_offsets[i] + chunk_sizes[i]` does not exceed `buffer_length`. -/
theorem shim_chunks_ascending_within (engine : Engine) (replies : CallocReplies)
    (a : ShimArgs) (m m1 : Memory)
    (h : cld2_haskell_shim engine replies a m = .returned 0 m1)
    (hengine : ∀ out, (engine_result engine a m).exit = .returns out →
      engine_chunk_contract out.resultChunks a.buffer_length) :
    offsets_ascending m1.heap m1.chunk_offsets ∧
    spans_within m1.heap m1.chunk_offsets m1.chunk_sizes m1.num_chunks a.buffer_length := by
  obtain ⟨out, hx, hasc, hin⟩ := shim_order_and_bounds_follow_engine engine replies a m m1 h
  obtain ⟨c1, c2⟩ := hengine out hx
  exact ⟨hasc.mpr c1, hin.mpr c2⟩

/-- The two-chunk call returns status 0 and its engine result meets the
contract, so C10 applies to it. -/
theorem shim_chunks_ascending_within_witness :
    cld2_haskell_shim engine_two_chunks all_blocks args0 mem0 = .returned 0 mem_two_chunks ∧
    (∀ out, (engine_result engine_two_chunks args0 mem0).exit = .returns out →
      engine_chunk_contract out.resultChunks args0.buffer_length) ∧
    offsets_ascending mem_two_chunks.heap mem_two_chunks.chunk_offsets ∧
    spans_within mem_two_chunks.heap mem_two_chunks.chunk_offsets mem_two_chunks.chunk_sizes
      mem_two_chunks.num_chunks args0.buffer_length :=
  ⟨by decide, two_chunks_contract,
    shim_chunks_ascending_within engine_two_chunks all_blocks args0 mem0 mem_two_chunks
      (by decide) two_chunks_contract⟩

end Cld2Shim
